import Mathlib

/-!
Shallow embedding of the authorization engine of `a-type/graphql-authorization`.

Embedded sources:
* `src/withAuthorization.js` — the recursive policy evaluator (`processAuth`,
  `processPath`, `processLevel`), the permission lookup (`getAuthResolver`),
  the result aggregator (`summarizeAuthResult`), the memoized lazy `run`
  handle with its sub-path projection (`createSubLevelRunFn`), and the
  mutation-name classifier (`getQueryType` with regex
  `/(create|update|upsert|delete|updateMany|deleteMany)/`).
* the `Authorized` class file — the three-phase request pipeline
  (`wrapQuery`: validate inputs, run query, validate response), the
  per-user memoized compiled authorizer (`forUser`) and its invalidation
  (`setPermissionMap`).

JS values are modelled by `Value`; authorization-result trees (booleans,
plain objects, numbers, pending promise objects) by `ResultVal`; permission
mapping nodes (booleans, delegate strings, predicate functions, nested
plain objects) by `AuthNode`.  Asynchrony is modelled by deterministic
settlement: a settled async function is a pure function, and a *pending*
promise appearing as a data leaf is the explicit constructor
`ResultVal.rPromise` (carrying the value it would eventually settle to).
Dot-joined property paths are modelled as `List String` (the JS code joins
and re-splits them with `.`, which is a bijection for dot-free keys).
-/

namespace GqlAuth

mutual
/-- A JSON-ish JavaScript value: `null`, `undefined`, booleans, numbers,
strings and plain objects (ordered key/value fields, as JS objects are).
`VFields` is the field list (kept mutual so that structural recursion and a
computable size are available). -/
inductive Value where
  | vNull
  | vUndefined
  | vBool (b : Bool)
  | vNum (n : Int)
  | vStr (s : String)
  | vObj (fields : VFields)
inductive VFields where
  | nil
  | cons (key : String) (v : Value) (rest : VFields)
end

mutual
/-- Structural size of a `Value`, used only to pick an always-sufficient
fuel for the delegation recursion of `processAuth` (the JS recursion
terminates because each delegation step descends into a proper sub-value of
the current root arguments). -/
def valueSize : Value → Nat
  | .vObj fields => 1 + vfieldsSize fields
  | _ => 1
def vfieldsSize : VFields → Nat
  | .nil => 0
  | .cons _ v rest => 1 + valueSize v + vfieldsSize rest
end

mutual
/-- An authorization-result tree as produced by `processAuth` /
`Authorizer.authorize`: boolean leaves, plain-object nodes, plus the two
malformed leaf shapes that can actually reach `summarizeAuthResult` in the
JS code — numbers, and unsettled promise objects returned by async
predicate functions (a promise's eventual value is recorded in the
constructor argument, but a JS `Promise` object has no enumerable own
properties, which is what aggregation sees). -/
inductive ResultVal where
  | rBool (b : Bool)
  | rNum (n : Int)
  | rPromise (inner : ResultVal)
  | rObj (fields : RFields)
inductive RFields where
  | nil
  | cons (key : String) (val : ResultVal) (rest : RFields)
end

mutual
/-- `summarizeAuthResult`'s inner `traverse` (src/withAuthorization.js:18-23):
`traverse(sum, level) = isBoolean(level) ? sum && level
: Object.values(level).reduce(traverse, sum)`.
`Object.values` of a number or of a promise object is `[]`, so such leaves
leave `sum` unchanged.  `traverseSumFields` is the `reduce` over the object's
values in field order. -/
def traverseSum : Bool → ResultVal → Bool
  | sum, .rBool b => sum && b
  | sum, .rNum _ => sum
  | sum, .rPromise _ => sum
  | sum, .rObj fields => traverseSumFields sum fields
def traverseSumFields : Bool → RFields → Bool
  | sum, .nil => sum
  | sum, .cons _ v rest => traverseSumFields (traverseSum sum v) rest
end

/-- `summarizeAuthResult` (src/withAuthorization.js:17-25): reduce the
result tree to one boolean, starting the accumulator at `true`. -/
def summarizeAuthResult (r : ResultVal) : Bool := traverseSum true r

/-- A node of the permission mapping, after lookup: the JS code
distinguishes exactly four shapes at evaluation time
(src/withAuthorization.js:48-59): a plain object (nested policy subtree), a
boolean, a string (delegate to another resource), and otherwise a predicate
function invoked as `authResolver(rootArgs, run, ctx)`. -/
inductive AuthNode where
  | nBool (b : Bool)
  | nStr (s : String)
  | nFun (f : Value → (Unit → Value) → Value → ResultVal)
  | nObj (fields : List (String × AuthNode))

/-- lodash `get` over the nested permission mapping with a property path;
returns `none` when the path misses (including when it runs through a
non-object node). -/
def lodashGetNode : AuthNode → List String → Option AuthNode
  | n, [] => some n
  | .nObj fields, k :: ks =>
    match fields.find? (fun p => p.1 == k) with
    | some p => lodashGetNode p.2 ks
    | none => none
  | _, _ :: _ => none

/-- `getAuthResolver` (src/withAuthorization.js:36-37):
`get(authMapping, resourceName + '.' + queryType + '.' + queryPath, false)` —
the lookup misses default to the boolean `false` (deny). -/
def getAuthResolver (m : AuthNode) (resourceName queryType : String)
    (queryPath : List String) : AuthNode :=
  (lodashGetNode m ([resourceName, queryType] ++ queryPath)).getD (.nBool false)

/-- First field with the given key in a JS object (JS object keys are
unique, so first = only). -/
def findField : VFields → String → Option Value
  | .nil, _ => none
  | .cons key v rest, k => if key == k then some v else findField rest k

/-- lodash `get` over a data `Value` with a property path; `undefined` on a
miss. -/
def getValuePath : Value → List String → Value
  | v, [] => v
  | .vObj fields, k :: ks =>
    match findField fields k with
    | some v => getValuePath v ks
    | none => .vUndefined
  | _, _ :: _ => .vUndefined

/-- `createSubLevelRunFn` (src/withAuthorization.js:39-42):
`(path, run) => async () => get(await run(), path)` — a lazy-run handle
whose resolution projects the outer run's result at `path`. -/
def createSubLevelRunFn (path : List String) (run : Unit → Value) : Unit → Value :=
  fun u => getValuePath (run u) path

/-- lodash `mapValues` over a JS object, producing an authorization-result
object with the same keys in the same order. -/
def mapFieldsR (f : String → Value → ResultVal) : VFields → RFields
  | .nil => .nil
  | .cons key v rest => .cons key (f key v) (mapFieldsR f rest)

/-- One step of `processPath` (src/withAuthorization.js:45-60), with the
recursive continuation `processLevel` passed explicitly (the JS functions
are mutually recursive closures; the delegate branch's
`processAuth(subArgs, subRun, info, ctx)` is the inlined
`processLevel(subArgs)` of the recursive `processAuth` call, which closes
over the *same* `getAuthResolver` — i.e. the same resource name and query
type).  Branches in source order: `isPlainObject` → recurse into the level;
`isBoolean` → terminal; `isString` (delegate) → take
`subArgs = get(rootArgs, absoluteKey)`, build the projected sub-run, and
re-process from the top; otherwise → call the predicate
`authResolver(rootArgs, run, ctx)`. -/
def processPathStep (ctx : Value)
    (processLevel : (Unit → Value) → Value → Value → List String → ResultVal)
    (run : Unit → Value) (rootArgs value : Value) (authResolver : AuthNode)
    (absKey : List String) : ResultVal :=
  match authResolver with
  | .nObj _ => processLevel run rootArgs value absKey
  | .nBool b => .rBool b
  | .nStr _ =>
    let subArgs := getValuePath rootArgs absKey
    let subRun := createSubLevelRunFn absKey run
    processLevel subRun subArgs subArgs []
  | .nFun f => f rootArgs run ctx

/-- `processLevel` (src/withAuthorization.js:62-70): map every field of the
args object to `processPath(value, getAuthResolver(absKey), absKey)` with
`absKey = levelKey ++ [key]`; `mapValues` of a non-object is `{}`.  `fuel`
only bounds the delegation re-entry depth; the JS recursion terminates
because each level descends into sub-values and each delegation descends
into a proper sub-value of the current root args, so any
`fuel > valueSize rootArgs` is never exhausted (the fuel-0 value is
arbitrary and unreachable from `processAuth`). -/
def processLevelF (m : AuthNode) (res qt : String) (ctx : Value) :
    Nat → (Unit → Value) → Value → Value → List String → ResultVal
  | 0, _, _, _, _ => .rBool true
  | fuel + 1, run, rootArgs, args, levelKey =>
    match args with
    | .vObj fields =>
      .rObj (mapFieldsR
        (fun key value =>
          processPathStep ctx
            (fun r1 a1 v1 k1 => processLevelF m res qt ctx fuel r1 a1 v1 k1)
            run rootArgs value (getAuthResolver m res qt (levelKey ++ [key]))
            (levelKey ++ [key]))
        fields)
    | _ => .rObj .nil

/-- `processAuth` (src/withAuthorization.js:44-76) at a given fuel:
`processLevel(rootArgs)` with an empty level key. -/
def processAuthF (m : AuthNode) (res qt : String) (fuel : Nat) (rootArgs : Value)
    (run : Unit → Value) (ctx : Value) : ResultVal :=
  processLevelF m res qt ctx fuel run rootArgs rootArgs []

/-- `processAuth` with an always-sufficient fuel. -/
def processAuth (m : AuthNode) (res qt : String) (rootArgs : Value)
    (run : Unit → Value) (ctx : Value) : ResultVal :=
  processAuthF m res qt (valueSize rootArgs + 1) rootArgs run ctx

/-- The authorization decision of `wrapped` (src/withAuthorization.js:89-98):
`isAuthorized = summarizeAuthResult(await processAuth(args, run, info, ctx))`.
Note the single `await` settles only a top-level promise; `processAuth`
returns a plain object, so promise leaves inside it reach
`summarizeAuthResult` unsettled. -/
def wrappedIsAuthorized (m : AuthNode) (res qt : String) (args : Value)
    (run : Unit → Value) (ctx : Value) : Bool :=
  summarizeAuthResult (processAuth m res qt args run ctx)

/-- JS truthiness of a `Value` (`!runResult` is the negation of this):
`null`, `undefined`, `false`, `0` and `""` are falsy; every object is
truthy. -/
def truthy : Value → Bool
  | .vNull => false
  | .vUndefined => false
  | .vBool b => b
  | .vNum n => n != 0
  | .vStr s => s != ""
  | .vObj _ => true

/-- One invocation of the `run` handle (src/withAuthorization.js:81-87):
`if (!runResult) { runResult = await queryFunction(args, info); }
return runResult;` — state is the `runResult` variable (`none` =
`undefined`), `opResult` is the (deterministic) settlement of
`queryFunction(args, info)`, and the third component counts invocations of
the underlying query function made by this call. -/
def runOnce (opResult : Value) : Option Value → Value × Option Value × Nat
  | some v => if truthy v then (v, some v, 0) else (opResult, some opResult, 1)
  | none => (opResult, some opResult, 1)

/-- A sequence of invocations of the `run` handle within one request, each
through a sub-path projection (`createSubLevelRunFn`): an empty path is a
direct `run()` call.  Returns the values observed by each invocation, the
final `runResult` state, and the total number of underlying query-function
invocations. -/
def runSeq (opResult : Value) : List (List String) → Option Value → List Value × Option Value × Nat
  | [], st => ([], st, 0)
  | path :: rest, st =>
    let r1 := runOnce opResult st
    let r2 := runSeq opResult rest r1.2.1
    (getValuePath r1.1 path :: r2.1, r2.2.1, r1.2.2 + r2.2.2)

/-- The alternatives of the classifier regex
`/(create|update|upsert|delete|updateMany|deleteMany)/`
(src/withAuthorization.js:7), in alternation order. -/
def matchTokens : List String := ["create", "update", "upsert", "delete", "updateMany", "deleteMany"]

/-- `regex.exec` semantics for the unanchored alternation above: scan start
positions left to right; at each position try the alternatives in order and
return the first that matches there. -/
def execMatchAux : List Char → Option String
  | [] => none
  | c :: rest =>
    match matchTokens.find? (fun t => t.data.isPrefixOf (c :: rest)) with
    | some t => some t
    | none => execMatchAux rest

/-- `matchQueryType.exec(queryName)`, reduced to its first capture group. -/
def execMatch (s : String) : Option String := execMatchAux s.data

/-- `getQueryType` (src/withAuthorization.js:9-15): the regex match, or a
thrown `Unknown query type` error when there is none. -/
def getQueryType (queryName : String) : Except String String :=
  match execMatch queryName with
  | some t => .ok t
  | none => .error ("Unknown query type for query named " ++ queryName)

/-- The query-type selection of `wrapQuery` (src/withAuthorization.js:32):
`isRead ? 'get' : getQueryType(queryName)` — reads are never classified. -/
def wrapQueryType (isRead : Bool) (queryName : String) : Except String String :=
  if isRead then .ok "get" else getQueryType queryName

/-- Whether `needle` occurs as a contiguous substring of the character
list. -/
def occursIn (needle : List Char) : List Char → Bool
  | [] => needle.isEmpty
  | c :: rest => needle.isPrefixOf (c :: rest) || occursIn needle rest

/-- JS `String.prototype.replace` with a plain-string pattern and empty
replacement: remove the first occurrence of the pattern. -/
def replaceFirstAux : List Char → List Char → List Char
  | [], _ => []
  | c :: cs, t => if t.isPrefixOf (c :: cs) then (c :: cs).drop t.length else c :: replaceFirstAux cs t

/-- `queryName.replace(queryType, '')`. -/
def replaceFirst (s t : String) : String := String.mk (replaceFirstAux s.data t.data)

/-- The external `change-case` `camel` collaborator (case conversion is out
of scope per the spec), restricted to the separator-free identifiers that
occur here: lower-case the first character. -/
def camel (s : String) : String :=
  match s.data with
  | [] => ""
  | c :: cs => String.mk (Char.toLower c :: cs)

/-- `resourceName` derivation of `wrapQuery` (src/withAuthorization.js:33):
`camel(queryName.replace(queryType, ''))`. -/
def resourceNameOf (queryType queryName : String) : String :=
  camel (replaceFirst queryName queryType)

/-- The fields of a JS object value (`mapValues` iterates these; for a
non-object there are none). -/
def fieldsOf : Value → VFields
  | .vObj fields => fields
  | _ => .nil

/-- Phase-1 input validation of the pipeline (`wrapQuery` in the
`Authorized` class): `mapValues(inputs, (value, key) =>
authorizer.authorize({typeName: inputTypes[key], authType: 'write',
data: value, ...}))`, with all promise values settled
(`mapPromiseValues`).  `authorize` is the compiled authorizer, passed as a
function of (type name, auth type, data). -/
def inputValidationResult (authorize : String → String → Value → ResultVal)
    (inputTypes : String → String) (inputs : Value) : ResultVal :=
  .rObj (mapFieldsR (fun key value => authorize (inputTypes key) "write" value) (fieldsOf inputs))

/-- Outcome of one wrapped request: the returned payload or the thrown
authorization error (carrying the denied result tree for diagnostics; the
input-type annotation of the write-phase detail is diagnostic-only and not
modelled), plus the number of invocations of the underlying
`queryFunction`. -/
structure PipelineRun where
  outcome : Except ResultVal Value
  opCalls : Nat

/-- The three-phase wrapped query of the `Authorized` class, for one
request.  Phase 1 (mutations only, `isRead = false`): validate every
top-level input against the `write` rules and throw before the operation
runs if the summary is `false`.  Phase 2: `queryResponse = await
queryFunction(inputs, info)`.  Phase 3: validate the response against the
`read` rules; throw on failure, otherwise return the response payload. -/
def wrapQueryRun (authorize : String → String → Value → ResultVal)
    (inputTypes : String → String) (responseType : String)
    (queryFunction : Value → Value) (isRead : Bool) (inputs : Value) : PipelineRun :=
  if isRead = false && !(summarizeAuthResult (inputValidationResult authorize inputTypes inputs)) then
    { outcome := .error (inputValidationResult authorize inputTypes inputs), opCalls := 0 }
  else
    let queryResponse := queryFunction inputs
    let responseValidationResult := authorize responseType "read" queryResponse
    if !(summarizeAuthResult responseValidationResult) then
      { outcome := .error responseValidationResult, opCalls := 1 }
    else
      { outcome := .ok queryResponse, opCalls := 1 }

/-- The per-user compiled authorizer built by `forUser`: the complete
permission map it captured (the user mapping with derived type permissions
applied) for the given principal. -/
structure CompiledAuthorizer where
  userId : String
  compiledMap : AuthNode

/-- The mutable state of an `Authorized` instance: the current permission
map and the memoization cache of `forUser`, keyed by principal identity. -/
structure AuthorizedState where
  permissionMap : AuthNode
  cache : List (String × CompiledAuthorizer)

/-- The body of `forUser` for one principal: compile the current permission
map (`complete` is `applyDerivedTypePermissions(typeDefs)` — or the
identity when derived-permission generation is disabled — an external
transformation of the mapping). -/
def compileForUser (complete : AuthNode → AuthNode) (pm : AuthNode) (u : String) :
    CompiledAuthorizer :=
  { userId := u, compiledMap := complete pm }

/-- `forUser = memoize(user => ...)`: return the cached compiled authorizer
for the principal if present, otherwise compile against the *current*
permission map and cache it. -/
def forUser (complete : AuthNode → AuthNode) (s : AuthorizedState) (u : String) :
    CompiledAuthorizer × AuthorizedState :=
  match s.cache.find? (fun p => p.1 == u) with
  | some p => (p.2, s)
  | none =>
    let c := compileForUser complete s.permissionMap u
    (c, { s with cache := (u, c) :: s.cache })

/-- `setPermissionMap` (the `Authorized` class): replace the permission map
and clear the whole `forUser` cache (`this.forUser.cache.clear()`). -/
def setPermissionMap (_s : AuthorizedState) (pm : AuthNode) : AuthorizedState :=
  { permissionMap := pm, cache := [] }

/-- Whether the memoization cache holds an entry for the principal. -/
def cacheHas (s : AuthorizedState) (u : String) : Bool :=
  s.cache.any (fun p => p.1 == u)

/-- Trivial settled lazy-run handle used for concrete evaluations. -/
def runW : Unit → Value := fun _ => Value.vNull

/-- Trivial auth context value used for concrete evaluations. -/
def ctxW : Value := Value.vNull

/-- Membership of a key/value pair in a value-object field list. -/
inductive VMem : String → Value → VFields → Prop
  | head (k : String) (v : Value) (rest : VFields) : VMem k v (.cons k v rest)
  | tail (k : String) (v : Value) (k2 : String) (v2 : Value) (rest : VFields) :
      VMem k v rest → VMem k v (.cons k2 v2 rest)

/-- Membership of a key/value pair in a result-object field list. -/
inductive RMem : String → ResultVal → RFields → Prop
  | head (k : String) (v : ResultVal) (rest : RFields) : RMem k v (.cons k v rest)
  | tail (k : String) (v : ResultVal) (k2 : String) (v2 : ResultVal) (rest : RFields) :
      RMem k v rest → RMem k v (.cons k2 v2 rest)

/-- A result tree that has a `false` boolean leaf reachable through object
nodes only (the leaves aggregation actually visits). -/
inductive ContainsFalseLeaf : ResultVal → Prop
  | leaf : ContainsFalseLeaf (.rBool false)
  | obj (k : String) (v : ResultVal) (fields : RFields) :
      RMem k v fields → ContainsFalseLeaf v → ContainsFalseLeaf (.rObj fields)

/-- Whether the data value has an object chain along the whole path. -/
def valueHasPath : Value → List String → Bool
  | _, [] => true
  | .vObj fields, k :: ks =>
    match findField fields k with
    | some v => valueHasPath v ks
    | none => false
  | _, _ :: _ => false

/-- Whether a mapping node is a plain object (nested policy subtree). -/
def isObjNode : AuthNode → Bool
  | .nObj _ => true
  | _ => false

/-- Permission mapping for the fail-closed witness: `post.get.author` is a
nested policy subtree that has no `email` entry. -/
def mW : AuthNode :=
  .nObj [("post", .nObj [("get", .nObj [("author", .nObj [("name", .nBool true)])])])]

/-- Data for the fail-closed witness: an `author.email` path is present in
the data but absent from the mapping. -/
def dataW : Value := .vObj (.cons "author" (.vObj (.cons "email" (.vStr "x") .nil)) .nil)

/-- Permission mapping for the fail-closed counterexample: `post.get.a` is
the boolean `Allow`, so the sub-path `a.b` has no entry of its own. -/
def mX : AuthNode := .nObj [("post", .nObj [("get", .nObj [("a", .nBool true)])])]

/-- Data for the fail-closed counterexample: contains the path `a.b`. -/
def dataX : Value := .vObj (.cons "a" (.vObj (.cons "b" (.vNum 5) .nil)) .nil)

/-- Mapping with a delegate node: `post.get.author` delegates to the
resource `user`, whose own policy allows `email`. -/
def mC3 : AuthNode :=
  .nObj [("post", .nObj [("get", .nObj [("author", .nStr "user")])]),
         ("user", .nObj [("get", .nObj [("email", .nBool true)])])]

/-- Data whose `author` field should be authorized by delegation. -/
def dataC3 : Value := .vObj (.cons "author" (.vObj (.cons "email" (.vStr "a@b.com") .nil)) .nil)

/-- Mapping with an asynchronous predicate: `post.get.title` is a predicate
function whose returned promise settles to `false`. -/
def mC5 : AuthNode :=
  .nObj [("post", .nObj [("get",
    .nObj [("title", .nFun (fun _ _ _ => .rPromise (.rBool false)))])])]

/-- Data with a `title` field guarded by the async predicate. -/
def dataC5 : Value := .vObj (.cons "title" (.vStr "x") .nil)

/-- A compiled authorizer denying every field (for pipeline witnesses). -/
def authDenyAll : String → String → Value → ResultVal := fun _ _ _ => .rBool false

/-- A compiled authorizer allowing every field (for pipeline witnesses). -/
def authAllowAll : String → String → Value → ResultVal := fun _ _ _ => .rBool true

/-- Input-type resolution for pipeline witnesses. -/
def inputTypesW : String → String := fun _ => "PostCreateInput"

/-- Underlying query function for pipeline witnesses. -/
def queryFunctionW : Value → Value := fun _ => .vObj (.cons "id" (.vNum 1) .nil)

/-- Request inputs for pipeline witnesses. -/
def inputsW : Value := .vObj (.cons "title" (.vStr "x") .nil)

mutual
/-- The accumulator of `traverse` factors out: `traverse(sum, level)` is
`sum AND traverse(true, level)`. -/
theorem traverseSum_and : ∀ (r : ResultVal) (s : Bool), traverseSum s r = (s && traverseSum true r)
  | .rBool b, s => by simp [traverseSum, Bool.and_assoc]
  | .rNum _, s => by simp [traverseSum]
  | .rPromise _, s => by simp [traverseSum]
  | .rObj fields, s => by simpa [traverseSum] using traverseSumFields_and fields s
/-- The accumulator of the field fold factors out likewise. -/
theorem traverseSumFields_and : ∀ (l : RFields) (s : Bool),
    traverseSumFields s l = (s && traverseSumFields true l)
  | .nil, s => by simp [traverseSumFields]
  | .cons k v rest, s => by
    have h1 := traverseSum_and v s
    have h2 := traverseSumFields_and rest (traverseSum s v)
    have h3 := traverseSumFields_and rest (traverseSum true v)
    simp only [traverseSumFields]
    rw [h2, h1, h3, Bool.and_assoc]
end

/-- A field list containing a member whose traversal is `false` folds to
`false` from any accumulator. -/
theorem traverseSumFields_false_of_mem (fields : RFields) (k : String) (v : ResultVal)
    (hmem : RMem k v fields) (hv : traverseSum true v = false) :
    ∀ s, traverseSumFields s fields = false := by
  induction hmem with
  | head rest =>
    intro s
    simp only [traverseSumFields]
    rw [traverseSum_and v s, hv, Bool.and_false, traverseSumFields_and rest false]
    simp
  | tail k2 v2 rest hm ih =>
    intro s
    simp only [traverseSumFields]
    exact ih _

/-- A result tree with a reachable `false` boolean leaf summarizes to
`false`. -/
theorem summarize_false_of_contains (r : ResultVal) (h : ContainsFalseLeaf r) :
    summarizeAuthResult r = false := by
  induction h with
  | leaf => rfl
  | obj k v fields hmem hv ih =>
    show traverseSum true (.rObj fields) = false
    simp only [traverseSum]
    exact traverseSumFields_false_of_mem fields k v hmem ih true

/-- `mapValues` preserves field membership. -/
theorem rmem_mapFieldsR (f : String → Value → ResultVal) (fields : VFields)
    (k : String) (v : Value) (h : VMem k v fields) :
    RMem k (f k v) (mapFieldsR f fields) := by
  induction h with
  | head rest => exact RMem.head k (f k v) (mapFieldsR f rest)
  | tail k2 v2 rest hm ih => exact RMem.tail k (f k v) k2 (f k2 v2) (mapFieldsR f rest) ih

/-- A successful field lookup is a field membership. -/
theorem findField_vmem : ∀ (fields : VFields) (k : String) (v : Value),
    findField fields k = some v → VMem k v fields
  | .nil, k, v, h => by simp [findField] at h
  | .cons key w rest, k, v, h => by
    simp only [findField] at h
    by_cases hk : key == k
    · rw [if_pos hk] at h
      have hkk : key = k := by simpa using hk
      have hwv : w = v := by simpa using h
      subst hkk; subst hwv
      exact VMem.head key w rest
    · rw [if_neg hk] at h
      exact VMem.tail k v key w rest (findField_vmem rest k v h)

/-- A found field is no larger than the field list that holds it. -/
theorem findField_size : ∀ (fields : VFields) (k : String) (v : Value),
    findField fields k = some v → valueSize v ≤ vfieldsSize fields
  | .nil, k, v, h => by simp [findField] at h
  | .cons key w rest, k, v, h => by
    simp only [findField] at h
    by_cases hk : key == k
    · rw [if_pos hk] at h
      have hwv : w = v := by simpa using h
      subst hwv
      simp only [vfieldsSize]; omega
    · rw [if_neg hk] at h
      have := findField_size rest k v h
      simp only [vfieldsSize]; omega

/-- A path present in the data is no longer than the data's size. -/
theorem valueHasPath_length_le (ks : List String) :
    ∀ (v : Value), valueHasPath v ks = true → ks.length ≤ valueSize v := by
  induction ks with
  | nil => intro v _; simp
  | cons k ks ih =>
    intro v h
    cases v with
    | vObj fields =>
      simp only [valueHasPath] at h
      cases hf : findField fields k with
      | none => rw [hf] at h; simp at h
      | some w =>
        rw [hf] at h
        have h1 := ih w h
        have h2 := findField_size fields k w hf
        simp only [valueSize, List.length_cons]; omega
    | vNull => simp [valueHasPath] at h
    | vUndefined => simp [valueHasPath] at h
    | vBool b => simp [valueHasPath] at h
    | vNum n => simp [valueHasPath] at h
    | vStr s => simp [valueHasPath] at h

/-- Core fail-closed lemma: if the data has an object chain along a
non-empty path, every proper non-empty prefix of the path resolves to a
nested policy object, and the full path resolves to `Deny`, then the level
processing of the evaluator produces a result tree with a reachable `false`
leaf (for any fuel at least the path length, any run handle, and any root
args — the nodes along such a path consult neither). -/
theorem c1_main (m : AuthNode) (res qt : String) (ctx : Value) :
    ∀ (ks : List String) (fuel : Nat) (run : Unit → Value) (rootArgs args : Value)
      (levelKey : List String),
      ks ≠ [] → ks.length ≤ fuel → valueHasPath args ks = true →
      (∀ i, i + 1 < ks.length →
        isObjNode (getAuthResolver m res qt (levelKey ++ ks.take (i + 1))) = true) →
      getAuthResolver m res qt (levelKey ++ ks) = .nBool false →
      ContainsFalseLeaf (processLevelF m res qt ctx fuel run rootArgs args levelKey) := by
  intro ks
  induction ks with
  | nil => intro fuel run rootArgs args levelKey hne; exact absurd rfl hne
  | cons k ks ih =>
    intro fuel run rootArgs args levelKey _hne hfuel hpath hpre hmiss
    cases fuel with
    | zero => simp at hfuel
    | succ f =>
      cases args with
      | vObj fields =>
        simp only [valueHasPath] at hpath
        cases hf : findField fields k with
        | none => rw [hf] at hpath; simp at hpath
        | some w =>
          rw [hf] at hpath
          have hvm := findField_vmem fields k w hf
          simp only [processLevelF]
          cases ks with
          | nil =>
            refine ContainsFalseLeaf.obj k _ _ (rmem_mapFieldsR _ fields k w hvm) ?_
            simp only [hmiss, processPathStep]
            exact ContainsFalseLeaf.leaf
          | cons k2 ks2 =>
            have hres0 := hpre 0 (by simp)
            simp only [List.take_succ_cons, List.take_zero] at hres0
            cases hA : getAuthResolver m res qt (levelKey ++ [k]) with
            | nObj sub =>
              refine ContainsFalseLeaf.obj k _ _ (rmem_mapFieldsR _ fields k w hvm) ?_
              simp only [hA, processPathStep]
              apply ih f run rootArgs w (levelKey ++ [k]) (by simp)
                (by simp only [List.length_cons] at hfuel ⊢; omega) hpath
              · intro i hi
                have h2 := hpre (i + 1)
                  (by simp only [List.length_cons] at hi ⊢; omega)
                rw [List.take_succ_cons, List.append_cons] at h2
                exact h2
              · have h3 := hmiss
                rw [List.append_cons] at h3
                exact h3
            | nBool b => rw [hA] at hres0; simp [isObjNode] at hres0
            | nStr s2 => rw [hA] at hres0; simp [isObjNode] at hres0
            | nFun f2 => rw [hA] at hres0; simp [isObjNode] at hres0
      | vNull => simp [valueHasPath] at hpath
      | vUndefined => simp [valueHasPath] at hpath
      | vBool b => simp [valueHasPath] at hpath
      | vNum n => simp [valueHasPath] at hpath
      | vStr st => simp [valueHasPath] at hpath

/-- C1 (amended): a field path with no entry in the permission mapping for
the current resource and operation kind resolves to `Deny` (`false`); and
an authorization over data containing such a path summarizes to `false`
provided the path is actually consulted, i.e. every proper non-empty prefix
of the path resolves to a nested policy object (in particular, a top-level
data field with no mapping entry always forces the summary to `false`). -/
theorem wa_c1_amended (m : AuthNode) (res qt : String) (data : Value)
    (run : Unit → Value) (ctx : Value) (ks : List String)
    (hne : ks ≠ [])
    (hpath : valueHasPath data ks = true)
    (hpre : ∀ i, i + 1 < ks.length →
      isObjNode (getAuthResolver m res qt (ks.take (i + 1))) = true)
    (hmiss : lodashGetNode m ([res, qt] ++ ks) = none) :
    getAuthResolver m res qt ks = .nBool false ∧
    summarizeAuthResult (processAuth m res qt data run ctx) = false := by
  have hres : getAuthResolver m res qt ks = .nBool false := by
    unfold getAuthResolver
    rw [hmiss]
    rfl
  refine ⟨hres, ?_⟩
  apply summarize_false_of_contains
  show ContainsFalseLeaf (processLevelF m res qt ctx (valueSize data + 1) run data data [])
  apply c1_main m res qt ctx ks (valueSize data + 1) run data data [] hne ?_ hpath ?_ ?_
  · have := valueHasPath_length_le ks data hpath
    omega
  · intro i hi
    simpa using hpre i hi
  · simpa using hres

/-- C1 (witness): mapping `post.get.author` is a policy subtree with only a
`name` entry; the data path `author.email` has no entry, and the request
summarizes to `false`. -/
theorem wa_c1_w :
    summarizeAuthResult (processAuth mW "post" "get" dataW runW ctxW) = false ∧
    getAuthResolver mW "post" "get" ["author", "email"] = .nBool false := by
  have h := wa_c1_amended mW "post" "get" dataW runW ctxW ["author", "email"]
    (by decide) (by rfl)
    (fun i hi => by
      have hi0 : i = 0 := by simp only [List.length_cons, List.length_nil] at hi; omega
      subst hi0
      rfl)
    (by rfl)
  exact ⟨h.2, h.1⟩

/-- C1 (counterexample): with `post.get.a = Allow` and data containing the
path `a.b`, the path `a.b` has no entry in the mapping (and by itself
resolves to `Deny`), yet the authorization summarizes to `true` — so "an
authorization over data containing such a path summarizes to false, never
true" is false as stated: the `Allow` at the parent governs, and the
missing sub-path entry is never consulted. -/
theorem wa_c1_counter :
    lodashGetNode mX ["post", "get", "a", "b"] = none ∧
    getAuthResolver mX "post" "get" ["a", "b"] = .nBool false ∧
    summarizeAuthResult (processAuth mX "post" "get" dataX runW ctxW) = true :=
  ⟨rfl, rfl, rfl⟩

/-- C3 (code evaluation): with `post.get.author` delegating to resource
`user` whose own policy allows `email`, the evaluator takes the
sub-arguments at `author` but then processes them against the policy of
`post` (the delegate string `user` is never consulted: `processAuth`
closes over the `getAuthResolver` of the original resource), so the
delegated check resolves `email` under `post.get.email` — absent, hence
denied — and the request summarizes to `false` even though `user.get.email`
is `Allow`. -/
theorem wa_c3_code_eval :
    getAuthResolver mC3 "post" "get" ["author"] = .nStr "user" ∧
    getAuthResolver mC3 "user" "get" ["email"] = .nBool true ∧
    processAuth mC3 "post" "get" dataC3 runW ctxW
      = .rObj (.cons "author" (.rObj (.cons "email" (.rBool false) .nil)) .nil) ∧
    summarizeAuthResult (processAuth mC3 "post" "get" dataC3 runW ctxW) = false :=
  ⟨rfl, rfl, rfl, rfl⟩

/-- C4 (code evaluation): when the underlying operation settles to a falsy
value (here `null`), two invocations of the `run` handle invoke the
underlying query function twice — the `if (!runResult)` guard re-runs on a
cached falsy settlement, so the "exactly once" claim fails. -/
theorem wa_c4_code_eval :
    runSeq Value.vNull [[], []] none
      = ([Value.vNull, Value.vNull], some Value.vNull, 2) := rfl

/-- C5 (code evaluation): a predicate returning a promise that settles to
`false` is aggregated unsettled — the promise leaf has no enumerable own
values, so summarization skips it and the request is authorized (summary
`true`), even though the predicate resolves to `false`. -/
theorem wa_c5_code_eval :
    processAuth mC5 "post" "get" dataC5 runW ctxW
      = .rObj (.cons "title" (.rPromise (.rBool false)) .nil) ∧
    wrappedIsAuthorized mC5 "post" "get" dataC5 runW ctxW = true :=
  ⟨rfl, rfl⟩

/-- C6 (counterexample): a result tree whose leaf is a number — neither a
boolean nor a plain object — does not make summarization fail: it produces
the boolean verdict `true` (there is no `InvalidAuthResultShape` error in
the code). -/
theorem wa_c6_counter :
    summarizeAuthResult (.rObj (.cons "a" (.rNum 5) .nil)) = true := rfl

/-- C6 (amended): summarization does not validate leaf shapes; a leaf that
is neither a boolean nor a plain object (a number, or an unsettled promise
object) is traversed by its enumerable own values — of which it has none —
so it leaves the accumulator unchanged (treated as vacuously allowed) and a
boolean verdict is produced. -/
theorem wa_c6_amended (s : Bool) (n : Int) (r : ResultVal) :
    traverseSum s (.rNum n) = s ∧ traverseSum s (.rPromise r) = s ∧
    summarizeAuthResult (.rObj (.cons "score" (.rNum 7) (.cons "ok" (.rBool true) .nil))) = true :=
  ⟨rfl, rfl, rfl⟩

/-- C2: for every mutation request (a wrapped non-read query) whose
write-phase input validation summarizes to `false`, the pipeline raises the
authorization error and the underlying query function is never invoked
(operation call count stays zero). -/
theorem wa_c2 (authorize : String → String → Value → ResultVal)
    (inputTypes : String → String) (responseType : String)
    (queryFunction : Value → Value) (inputs : Value)
    (h : summarizeAuthResult (inputValidationResult authorize inputTypes inputs) = false) :
    (wrapQueryRun authorize inputTypes responseType queryFunction false inputs).opCalls = 0 ∧
    (wrapQueryRun authorize inputTypes responseType queryFunction false inputs).outcome
      = .error (inputValidationResult authorize inputTypes inputs) := by
  simp [wrapQueryRun, h]

/-- C2 (witness): a mutation with inputs `{title: "x"}` against a
deny-everything write policy raises the error with zero operation calls. -/
theorem wa_c2_w :
    (wrapQueryRun authDenyAll inputTypesW "Post" queryFunctionW false inputsW).opCalls = 0 ∧
    (wrapQueryRun authDenyAll inputTypesW "Post" queryFunctionW false inputsW).outcome
      = .error (inputValidationResult authDenyAll inputTypesW inputsW) :=
  wa_c2 authDenyAll inputTypesW "Post" queryFunctionW inputsW (by rfl)

/-- C7: for every request whose input validation passes (or which is a
read, where it is skipped) and whose output validation passes, the pipeline
returns the operation's response payload unchanged. -/
theorem wa_c7 (authorize : String → String → Value → ResultVal)
    (inputTypes : String → String) (responseType : String)
    (queryFunction : Value → Value) (isRead : Bool) (inputs : Value)
    (h1 : isRead = true ∨
      summarizeAuthResult (inputValidationResult authorize inputTypes inputs) = true)
    (h2 : summarizeAuthResult (authorize responseType "read" (queryFunction inputs)) = true) :
    (wrapQueryRun authorize inputTypes responseType queryFunction isRead inputs).outcome
      = .ok (queryFunction inputs) := by
  rcases h1 with h1 | h1 <;> simp [wrapQueryRun, h1, h2]

/-- C7 (witness): with an allow-everything policy, a mutation returns
exactly the query function's response object. -/
theorem wa_c7_w :
    (wrapQueryRun authAllowAll inputTypesW "Post" queryFunctionW false inputsW).outcome
      = .ok (queryFunctionW inputsW) :=
  wa_c7 authAllowAll inputTypesW "Post" queryFunctionW false inputsW (Or.inr (by rfl)) (by rfl)

/-- C8: after caching a compiled authorizer for a principal, replacing the
permission map clears the entire cache, and a subsequent `forUser` for that
same principal compiles against the new mapping, never the old one. -/
theorem wa_c8 (complete : AuthNode → AuthNode) (s : AuthorizedState) (u : String)
    (newMap : AuthNode) :
    cacheHas (forUser complete s u).2 u = true ∧
    (setPermissionMap (forUser complete s u).2 newMap).cache = [] ∧
    (forUser complete (setPermissionMap (forUser complete s u).2 newMap) u).1.compiledMap
      = complete newMap := by
  refine ⟨?_, rfl, rfl⟩
  unfold forUser cacheHas
  cases hf : s.cache.find? (fun p => p.1 == u) with
  | some p =>
    have hp := List.find?_some hf
    have hm := List.mem_of_find?_eq_some hf
    simp only [hf]
    simp only [List.any_eq_true]
    exact ⟨p, hm, hp⟩
  | none =>
    simp only [hf]
    simp [List.any_cons]

/-- `isPrefixOf` is transitive. -/
theorem isPrefixOf_trans (p q cs : List Char) (h1 : p.isPrefixOf q = true)
    (h2 : q.isPrefixOf cs = true) : p.isPrefixOf cs = true := by
  rw [List.isPrefixOf_iff_prefix] at h1 h2 ⊢
  exact h1.trans h2

/-- If no token occurs anywhere in the characters, the regex scan finds no
match. -/
theorem execMatchAux_eq_none (cs : List Char)
    (h : ∀ t ∈ matchTokens, occursIn t.data cs = false) : execMatchAux cs = none := by
  induction cs with
  | nil => rfl
  | cons c rest ih =>
    have hfind : matchTokens.find? (fun t => t.data.isPrefixOf (c :: rest)) = none := by
      apply List.find?_eq_none.mpr
      intro t ht
      have h1 := h t ht
      simp only [occursIn, Bool.or_eq_false_iff] at h1
      simp [h1.1]
    simp only [execMatchAux, hfind]
    apply ih
    intro t ht
    have h1 := h t ht
    simp only [occursIn, Bool.or_eq_false_iff] at h1
    exact h1.2

/-- At any scan position, the alternation can only yield one of the four
reachable alternatives: `updateMany` and `deleteMany` are preceded (in
alternation order) by their own prefixes `update` and `delete`, so they can
never be the first alternative to match. -/
theorem find?_token_reachable (cs : List Char) (t : String)
    (h : matchTokens.find? (fun tok => tok.data.isPrefixOf cs) = some t) :
    t = "create" ∨ t = "update" ∨ t = "upsert" ∨ t = "delete" := by
  rw [show matchTokens = ["create", "update", "upsert", "delete", "updateMany", "deleteMany"]
    from rfl] at h
  cases h1 : ("create".data.isPrefixOf cs) with
  | true =>
    rw [@List.find?_cons_of_pos _ (fun tok : String => tok.data.isPrefixOf cs) "create" _ h1] at h
    exact Or.inl (Option.some.inj h).symm
  | false =>
    rw [@List.find?_cons_of_neg _ (fun tok : String => tok.data.isPrefixOf cs) "create" _
      (by simp [h1])] at h
    cases h2 : ("update".data.isPrefixOf cs) with
    | true =>
      rw [@List.find?_cons_of_pos _ (fun tok : String => tok.data.isPrefixOf cs) "update" _ h2] at h
      exact Or.inr (Or.inl (Option.some.inj h).symm)
    | false =>
      rw [@List.find?_cons_of_neg _ (fun tok : String => tok.data.isPrefixOf cs) "update" _
        (by simp [h2])] at h
      cases h3 : ("upsert".data.isPrefixOf cs) with
      | true =>
        rw [@List.find?_cons_of_pos _ (fun tok : String => tok.data.isPrefixOf cs) "upsert" _
          h3] at h
        exact Or.inr (Or.inr (Or.inl (Option.some.inj h).symm))
      | false =>
        rw [@List.find?_cons_of_neg _ (fun tok : String => tok.data.isPrefixOf cs) "upsert" _
          (by simp [h3])] at h
        cases h4 : ("delete".data.isPrefixOf cs) with
        | true =>
          rw [@List.find?_cons_of_pos _ (fun tok : String => tok.data.isPrefixOf cs) "delete" _
            h4] at h
          exact Or.inr (Or.inr (Or.inr (Option.some.inj h).symm))
        | false =>
          rw [@List.find?_cons_of_neg _ (fun tok : String => tok.data.isPrefixOf cs) "delete" _
            (by simp [h4])] at h
          cases h5 : ("updateMany".data.isPrefixOf cs) with
          | true =>
            exfalso
            have := isPrefixOf_trans "update".data "updateMany".data cs (by rfl) h5
            rw [this] at h2
            exact Bool.noConfusion h2
          | false =>
            rw [@List.find?_cons_of_neg _ (fun tok : String => tok.data.isPrefixOf cs)
              "updateMany" _ (by simp [h5])] at h
            cases h6 : ("deleteMany".data.isPrefixOf cs) with
            | true =>
              exfalso
              have := isPrefixOf_trans "delete".data "deleteMany".data cs (by rfl) h6
              rw [this] at h4
              exact Bool.noConfusion h4
            | false =>
              rw [@List.find?_cons_of_neg _ (fun tok : String => tok.data.isPrefixOf cs)
                "deleteMany" _ (by simp [h6])] at h
              exact Option.noConfusion h

/-- Every successful regex match yields one of the four reachable
alternatives. -/
theorem execMatchAux_reachable : ∀ (cs : List Char) (t : String),
    execMatchAux cs = some t →
    t = "create" ∨ t = "update" ∨ t = "upsert" ∨ t = "delete" := by
  intro cs
  induction cs with
  | nil => intro t h; simp [execMatchAux] at h
  | cons c rest ih =>
    intro t h
    simp only [execMatchAux] at h
    cases hf : matchTokens.find? (fun tok => tok.data.isPrefixOf (c :: rest)) with
    | some t2 =>
      rw [hf] at h
      have ht2 : t2 = t := Option.some.inj h
      subst ht2
      exact find?_token_reachable (c :: rest) t2 hf
    | none =>
      rw [hf] at h
      exact ih t h

/-- C9: a write (mutation) operation whose name contains none of the six
recognizable operation-kind tokens is classified with the
`Unknown query type` error, while read operations are never classified at
all (their query type is always `get`). -/
theorem wa_c9 (name : String)
    (h : ∀ t ∈ matchTokens, occursIn t.data name.data = false) :
    wrapQueryType false name = .error ("Unknown query type for query named " ++ name) ∧
    (∀ n : String, wrapQueryType true n = .ok "get") := by
  constructor
  · show getQueryType name = _
    unfold getQueryType execMatch
    rw [execMatchAux_eq_none name.data h]
  · intro n
    rfl

/-- C9 (witness): the mutation name `fooBar` contains no token and is
rejected; any read name classifies as `get`. -/
theorem wa_c9_w :
    wrapQueryType false "fooBar" = .error "Unknown query type for query named fooBar" ∧
    wrapQueryType true "fooBar" = .ok "get" := by
  have h := wa_c9 "fooBar" (by decide)
  exact ⟨h.1, h.2 "fooBar"⟩

/-- C10 (counterexample): the name `createupdateManyFoo` contains the token
`updateMany`, yet it is classified as `create` (the leftmost match wins),
not as `update` — so "any name containing updateMany is classified as
update" is false as stated, and so is "returns the first regex alternative
that matches anywhere" read literally (the leftmost occurrence governs,
not alternation order over the whole name). -/
theorem wa_c10_counter :
    getQueryType "createupdateManyFoo" = .ok "create" ∧
    occursIn "updateMany".data "createupdateManyFoo".data = true ∧
    "create" ≠ "update" :=
  ⟨rfl, rfl, by decide⟩

/-- C10 (amended): classification scans the name left to right and at each
position tries the regex alternatives in order, returning the first match;
the `updateMany`/`deleteMany` alternatives are unreachable (whenever they
match, `update`/`delete` match at the same position and come earlier), so
every successful classification is one of `create`, `update`, `upsert`,
`delete`; the resource name strips only the first occurrence of the
matched token. -/
theorem wa_c10_amended (name t : String) (h : execMatch name = some t) :
    getQueryType name = .ok t ∧ t ≠ "updateMany" ∧ t ≠ "deleteMany" ∧
    (t = "create" ∨ t = "update" ∨ t = "upsert" ∨ t = "delete") := by
  have halt := execMatchAux_reachable name.data t h
  refine ⟨?_, ?_, ?_, halt⟩
  · unfold getQueryType
    rw [h]
  · rcases halt with h1 | h1 | h1 | h1 <;> subst h1 <;> decide
  · rcases halt with h1 | h1 | h1 | h1 <;> subst h1 <;> decide

/-- C10 (witness): `updateManyUsers` is classified as `update` (the
`updateMany` alternative loses to its prefix `update`), `deleteManyUsers`
as `delete`, and the derived resource name strips only the matched token:
`camel("updateManyUsers".replace("update", ""))` is `manyUsers`. -/
theorem wa_c10_w :
    execMatch "updateManyUsers" = some "update" ∧
    (getQueryType "updateManyUsers" = .ok "update" ∧ "update" ≠ "updateMany" ∧
      "update" ≠ "deleteMany" ∧
      ("update" = "create" ∨ "update" = "update" ∨ "update" = "upsert" ∨
        "update" = "delete")) ∧
    resourceNameOf "update" "updateManyUsers" = "manyUsers" ∧
    getQueryType "deleteManyUsers" = .ok "delete" :=
  ⟨rfl, wa_c10_amended "updateManyUsers" "update" rfl, by decide, rfl⟩

end GqlAuth






